import Mathlib

/-!
# Verification of the pullsaw stacked-PR engine

A shallow embedding, in Lean 4, of the parts of the `pullsaw` Python
package that its specification makes claims about:

* `pullsaw/pathspec.py` — glob-style pattern matching (`matches_pattern`,
  `matches_any_pattern`, `validate_patterns`);
* `pullsaw/models.py` — the `Step`/`Plan` data model, dict serialization
  and `Plan.validate`;
* `pullsaw/executor.py` — the dict-based `validate_plan`, the command
  runners `run_command` / `run_command_streaming`, and the `execute_step`
  implement/verify/fix state machine;
* `pullsaw/git_ops.py` — `sanitize_branch_name`.

Python strings are modelled as `List Char` where character-level
processing matters (paths, patterns, branch names) and as `String` where
they are only carried around (titles, goals).  Python dicts with optional
keys are modelled as structures with `Option`-typed fields, so that key
presence/absence is representable.  Python lists are Lean lists; the
iteration order of a Python dict of changed files (insertion order) is
modelled by using a list of file paths.
-/

namespace Pullsaw

/-! ## pathspec.py

`matches_pattern` delegates some cases to `PurePosixPath.match` from
the Python standard library, whose semantics (CPython 3.11/3.12,
`pathlib.PurePath.match` together with `fnmatch.fnmatchcase` and
`fnmatch.translate`) are embedded below: a relative pattern is matched
against the trailing components of the path, component by component;
`**` in a component behaves exactly like `*` (it does not cross `/`);
`?` matches one character; `[...]` is a character class with optional
`!` negation and `a-b` ranges (a reversed range is empty, a `-` at
either end of the class is literal, an unclosed `[` is a literal `[`).
Path parsing drops empty and `.` components, as `PurePosixPath` does. -/

/-- Split a character list on a separator character (Python `str.split(sep)`
for a single-character separator: `n` separators yield `n+1` pieces). -/
def splitOnChar (sep : Char) : List Char → List (List Char)
  | [] => [[]]
  | c :: cs =>
    if c = sep then [] :: splitOnChar sep cs
    else
      match splitOnChar sep cs with
      | [] => [[c]]
      | h :: t => (c :: h) :: t

/-- The components of a POSIX path as `PurePosixPath` parses them:
split on `/`, dropping empty components and `.` components. -/
def pathComponents (s : List Char) : List (List Char) :=
  (splitOnChar '/' s).filter fun c => !(c = [] || c = ['.'])

/-- Whether a POSIX path string is absolute (has a root). -/
def isAbsPath : List Char → Bool
  | '/' :: _ => true
  | _ => false

/-- One item of an `fnmatch` character class: a closed character range
(`(x, x)` for a literal character `x`). A `-` at either end of the class
body stays literal, exactly as in `fnmatch.translate`'s chunk logic. -/
def parseItems : List Char → List (Char × Char)
  | [] => []
  | [x] => [(x, x)]
  | x :: '-' :: y :: rest => (x, y) :: parseItems rest
  | x :: rest => (x, x) :: parseItems rest

/-- Membership of a character in an `fnmatch` character class. A range
`(lo, hi)` with `hi < lo` accepts nothing, matching `fnmatch.translate`'s
removal of empty ranges. -/
def inClass (neg : Bool) (items : List (Char × Char)) (c : Char) : Bool :=
  let mem := items.any fun r => decide (r.1 ≤ c ∧ c ≤ r.2)
  if neg then !mem else mem

/-- One token of a compiled `fnmatch` pattern. -/
inductive GlobTok where
  | lit (c : Char) : GlobTok
  | star : GlobTok
  | anyOne : GlobTok
  | cls (neg : Bool) (items : List (Char × Char)) : GlobTok
deriving DecidableEq, Repr

/-- A pattern character read outside any character class: `*` and `?` are
wildcards, everything else is literal. -/
def plainTok : Char → GlobTok
  | '*' => .star
  | '?' => .anyOne
  | c => .lit c

/-- A completed class body (the characters between `[` and `]`) as a
token: a leading `!` negates. -/
def classTok (body : List Char) : GlobTok :=
  match body with
  | '!' :: t => .cls true (parseItems t)
  | t => .cls false (parseItems t)

/-- Tokenizer for `fnmatch.translate` pattern syntax. The state is `none`
outside a character class and `some acc` inside one, `acc` holding the
body read so far, reversed. Following `translate`'s closing-bracket scan,
a `]` directly after `[` or after `[!` is a literal member of the class;
when the input ends inside a class (no closing `]` exists anywhere to the
right) the `[` is literal and `translate` re-reads the body characters as
ordinary pattern characters — such a remainder can contain `]` only in
the skipped leading position and no `[` inside it can ever be closed, so
the re-read yields exactly one `plainTok` per character. -/
def lexAux : Option (List Char) → List Char → List GlobTok
  | none, [] => []
  | none, '[' :: ps => lexAux (some []) ps
  | none, c :: ps => plainTok c :: lexAux none ps
  | some acc, [] => .lit '[' :: acc.reverse.map plainTok
  | some acc, ']' :: ps =>
    if acc = [] ∨ acc = ['!'] then lexAux (some (']' :: acc)) ps
    else classTok acc.reverse :: lexAux none ps
  | some acc, c :: ps => lexAux (some (c :: acc)) ps

/-- Compile an `fnmatch` pattern to tokens. -/
def lexGlob (pat : List Char) : List GlobTok := lexAux none pat

/-- Match a token sequence against a character list: `star` matches any
(possibly empty) sequence, `anyOne` one character, `cls` one character of
the class, `lit` itself. The whole input must be consumed (the regex
produced by `fnmatch.translate` is anchored). -/
def matchToks : List GlobTok → List Char → Bool
  | [], [] => true
  | [], _ :: _ => false
  | .star :: ts, s => s.tails.any fun t => matchToks ts t
  | .lit c :: ts, d :: cs => c == d && matchToks ts cs
  | .lit _ :: _, [] => false
  | .anyOne :: ts, _ :: cs => matchToks ts cs
  | .anyOne :: _, [] => false
  | .cls neg items :: ts, c :: cs => inClass neg items c && matchToks ts cs
  | .cls _ _ :: _, [] => false

/-- `fnmatch.fnmatchcase(name, pat)` on a single path component. -/
def compMatch (name pat : List Char) : Bool :=
  matchToks (lexGlob pat) name

/-- `PurePosixPath(filepath).match(pattern)` (CPython 3.11/3.12): a
relative pattern matches the trailing components of the path, one
component per pattern component via `compMatch`; an absolute pattern
requires an absolute path with exactly as many components, all matching.
An empty pattern raises `ValueError` in Python; it is modelled as
`false` (unreachable from `matchesPatternL`, whose fallthrough to this
function always passes a pattern containing `*`). -/
def purePathMatch (filepath pattern : List Char) : Bool :=
  let pp := pathComponents pattern
  let fp := pathComponents filepath
  if pp = [] then false
  else if isAbsPath pattern then
    isAbsPath filepath && pp.length = fp.length &&
      (fp.reverse.zip pp.reverse).all fun q => compMatch q.1 q.2
  else
    decide (pp.length ≤ fp.length) &&
      (fp.reverse.zip pp.reverse).all fun q => compMatch q.1 q.2

/-- `matches_pattern` from `pullsaw/pathspec.py`, on character lists.
A pattern ending in `/**` first tries the boundary-respecting check
(`filepath.startswith(prefix + "/") or filepath == prefix`) and then
falls back to `PurePosixPath.match`; a pattern containing `**` or `*`
elsewhere goes straight to `PurePosixPath.match`; anything else is an
exact string comparison. -/
def matchesPatternL (filepath pattern : List Char) : Bool :=
  if ("/**".data).isSuffixOf pattern then
    let pref := pattern.take (pattern.length - 3)
    if (pref ++ "/".data).isPrefixOf filepath || filepath = pref then true
    else purePathMatch filepath pattern
  else if (List.range (pattern.length + 1)).any
      (fun i => ("**".data).isPrefixOf (pattern.drop i)) then
    purePathMatch filepath pattern
  else if pattern.contains '*' then
    purePathMatch filepath pattern
  else filepath = pattern

/-- `matches_pattern(filepath, pattern)` on `String`s. -/
def matchesPattern (filepath pattern : String) : Bool :=
  matchesPatternL filepath.data pattern.data

/-- `matches_any_pattern` from `pullsaw/pathspec.py`. -/
def matchesAnyPattern (filepath : String) (patterns : List String) : Bool :=
  patterns.any fun p => matchesPattern filepath p

/-- The distinct error messages `validate_patterns` can produce; the
Python function renders them as strings via distinct f-string templates,
modelled here as distinct constructors. -/
inductive PatternErr where
  | emptyPattern : PatternErr
  | tooBroad (p : String) : PatternErr
deriving DecidableEq, Repr

/-- `validate_patterns` from `pullsaw/pathspec.py`: an empty pattern and
the bare `**` / `**/*` patterns are rejected; everything else (including
`**/name`, which the code only comments on) passes. -/
def validatePatterns (patterns : List String) : List PatternErr :=
  patterns.filterMap fun p =>
    if p = "" then some .emptyPattern
    else if p = "**" || p = "**/*" then some (.tooBroad p)
    else none

end Pullsaw

section PathspecChecks

open Pullsaw

example : matchesPattern "lib/auth/user.ex" "lib/auth/**" = true := by decide
example : matchesPattern "lib/auth/sub/deep.ex" "lib/auth/**" = true := by decide
example : matchesPattern "lib/other/file.ex" "lib/auth/**" = false := by decide
example : matchesPattern "lib/auth.ex" "lib/auth/**" = false := by decide
example : matchesPattern "lib/authorize/user.ex" "lib/auth/**" = false := by decide
example : matchesPattern "lib/foo.ex" "lib/*.ex" = true := by decide
example : matchesPattern "lib/sub/foo.ex" "lib/*.ex" = false := by decide
example : matchesPattern "lib/foo.ex" "lib/foo.ex" = true := by decide
example : matchesPattern "lib/bar.ex" "lib/foo.ex" = false := by decide
example : matchesPattern "README.md" "*.md" = true := by decide
example : matchesPattern "x/lib/auth/y" "lib/auth/**" = true := by decide

end PathspecChecks

namespace Pullsaw

/-! ## models.py — the Step/Plan data model

`ValidationError` messages are produced in Python by distinct f-string
templates; they are modelled as an inductive message type with one
constructor per template, paired with the `fatal` flag. A Python dict of
changed files maps path to `FileStatus`; validation only iterates its
keys in insertion order, so changed files are modelled as a list of
paths. -/

/-- `Step` from `pullsaw/models.py` (dataclass). -/
structure Step where
  id : Int
  title : String
  goal : String
  allow : List String
  shared_allow : List String := []
  topic : Option String := none
deriving DecidableEq, Repr

/-- `Step.all_patterns`: `allow + shared_allow`. -/
def Step.allPatterns (s : Step) : List String := s.allow ++ s.shared_allow

/-- The distinct messages `Plan.validate` can produce, one constructor per
f-string template of the Python code. -/
inductive Msg where
  | noSteps : Msg
  | missingAllow (id : Int) : Msg
  | missingTitle (id : Int) : Msg
  | missingGoal (id : Int) : Msg
  | patternProblem (id : Int) (e : PatternErr) : Msg
  | notCovered (files : List String) : Msg
  | coversNothing (id : Int) : Msg
deriving DecidableEq, Repr

/-- `ValidationError` from `pullsaw/models.py`: a message plus a `fatal`
flag defaulting to `True`. -/
structure ValidationError where
  message : Msg
  fatal : Bool := true
deriving DecidableEq, Repr

/-- `Plan` from `pullsaw/models.py`. The `source_file` provenance field
is irrelevant to every claim and is modelled as an optional path string. -/
structure Plan where
  steps : List Step
  source_file : Option String := none
deriving DecidableEq, Repr

/-- The per-step errors of the first loop of `Plan.validate`: a step with
an empty `allow` yields the fatal missing-allow error and `continue`s;
otherwise empty `title`/`goal` warn (non-fatal) and each pattern problem
from `validate_patterns` over the step's `all_patterns` is fatal. -/
def stepErrors (s : Step) : List ValidationError :=
  if s.allow = [] then [{ message := .missingAllow s.id }]
  else
    (if s.title = "" then [{ message := .missingTitle s.id, fatal := false }] else []) ++
    (if s.goal = "" then [{ message := .missingGoal s.id, fatal := false }] else []) ++
    (validatePatterns s.allPatterns).map fun e => { message := .patternProblem s.id e }

/-- The combined pattern list the first loop of `Plan.validate`
accumulates: `all_patterns` of every step, except that a step with an
empty `allow` is skipped by the `continue` before its patterns are added. -/
def collectedPatterns (steps : List Step) : List String :=
  (steps.filter fun s => !(s.allow = [] : Bool)).flatMap Step.allPatterns

/-- The changed files that match none of the collected patterns, in
input order. -/
def uncoveredFiles (steps : List Step) (changed : List String) : List String :=
  changed.filter fun f => !matchesAnyPattern f (collectedPatterns steps)

/-- The coverage check of `Plan.validate`: one fatal error listing every
uncovered file, when any exists. -/
def coverageErrors (steps : List Step) (changed : List String) : List ValidationError :=
  if uncoveredFiles steps changed = [] then []
  else [{ message := .notCovered (uncoveredFiles steps changed) }]

/-- The per-step usefulness check of `Plan.validate`: a non-fatal
warning for each step whose `all_patterns` match no changed file. -/
def uselessWarnings (steps : List Step) (changed : List String) : List ValidationError :=
  steps.filterMap fun s =>
    if changed.any fun f => matchesAnyPattern f s.allPatterns then none
    else some { message := .coversNothing s.id, fatal := false }

/-- `Plan.validate(changed_files)` from `pullsaw/models.py`. -/
def planValidate (p : Plan) (changed : List String) : List ValidationError :=
  if p.steps = [] then [{ message := .noSteps }]
  else
    p.steps.flatMap stepErrors ++ coverageErrors p.steps changed ++
      uselessWarnings p.steps changed

/-! ### Dict serialization (`Step.from_dict` / `Step.to_dict`,
`Plan.from_dict` / `Plan.to_yaml`)

A step dictionary is modelled as a structure of `Option` fields, one per
possible key, so that key absence is representable. `yaml.dump` followed
by `yaml.safe_load` is the identity on such document trees (PyYAML
round-trips scalars, lists and string-keyed maps of this shape exactly),
so YAML text is not modelled separately: serialization targets the
document tree. -/

/-- The dictionary form of a step. `none` means the key is absent. -/
structure StepDoc where
  id? : Option Int := none
  title? : Option String := none
  goal? : Option String := none
  allow? : Option (List String) := none
  shared_allow? : Option (List String) := none
  topic? : Option String := none
deriving DecidableEq, Repr

/-- `Step.from_dict`: every field is read with `dict.get` and a default
(`0`, `""`, `[]`; `topic` defaults to `None`). -/
def Step.fromDict (d : StepDoc) : Step where
  id := d.id?.getD 0
  title := d.title?.getD ""
  goal := d.goal?.getD ""
  allow := d.allow?.getD []
  shared_allow := d.shared_allow?.getD []
  topic := d.topic?

/-- Python truthiness of an optional string, as used by
`if self.topic:` — `None` and `""` are falsy. -/
def pyTruthyStr : Option String → Bool
  | none => false
  | some t => !(t = "" : Bool)

/-- `Step.to_dict`: the four required keys are always written;
`shared_allow` is written only when non-empty and `topic` only when
truthy. -/
def Step.toDict (s : Step) : StepDoc where
  id? := some s.id
  title? := some s.title
  goal? := some s.goal
  allow? := some s.allow
  shared_allow? := if s.shared_allow = [] then none else some s.shared_allow
  topic? := if pyTruthyStr s.topic then s.topic else none

/-- The document tree of a whole plan file: `none` models a document with
no top-level `stack` key (or an empty/null document, which
`Plan.from_yaml` also rejects). -/
structure PlanDoc where
  stack? : Option (List StepDoc) := none
deriving DecidableEq, Repr

/-- `Plan.to_yaml`, up to the YAML text layer: a document whose `stack`
is the list of step dictionaries. -/
def Plan.toDoc (p : Plan) : PlanDoc where
  stack? := some (p.steps.map Step.toDict)

/-- `Plan.from_yaml` / `Plan.from_dict`, up to the YAML text layer:
a missing `stack` key raises `ValueError`, modelled as `Except.error`. -/
def Plan.fromDoc (d : PlanDoc) : Except String Plan :=
  match d.stack? with
  | none => .error "Invalid plan file: missing stack field"
  | some l => .ok { steps := l.map Step.fromDict }

/-! ## executor.py — dict-based plan validation

`validate_plan` in `pullsaw/executor.py` re-implements `Plan.validate`
over raw dictionaries. It differs in the skip condition of the first
loop: the Python test there is `"allow" not in step` (key absence), not
`not step.allow` (falsiness), and a missing `id` is displayed as `"?"`.
Messages are modelled with `Option Int` ids (`none` prints as `?`). -/

/-- The messages `executor.validate_plan` can produce. -/
inductive DMsg where
  | noStack : DMsg
  | noSteps : DMsg
  | missingAllow (id : Option Int) : DMsg
  | missingTitle (id : Option Int) : DMsg
  | missingGoal (id : Option Int) : DMsg
  | patternProblem (id : Option Int) (e : PatternErr) : DMsg
  | notCovered (files : List String) : DMsg
  | coversNothing (id : Option Int) : DMsg
deriving DecidableEq, Repr

/-- `executor.ValidationError` (same shape as the models one). -/
structure DValidationError where
  message : DMsg
  fatal : Bool := true
deriving DecidableEq, Repr

/-- The pattern list `step.get("allow", []) + step.get("shared_allow", [])`
of one step dictionary. -/
def StepDoc.stepPatterns (d : StepDoc) : List String :=
  d.allow?.getD [] ++ d.shared_allow?.getD []

/-- Python truthiness of `step.get("title")` (`None` and `""` falsy). -/
def falsyStr (o : Option String) : Bool :=
  match o with
  | none => true
  | some t => (t = "" : Bool)

/-- Per-step errors of the first loop of `executor.validate_plan`: the
`continue` fires on `"allow" not in step`, i.e. only when the key is
absent — a present-but-empty `allow` list does not skip the step. -/
def dStepErrors (d : StepDoc) : List DValidationError :=
  if d.allow? = none then [{ message := .missingAllow d.id? }]
  else
    (if falsyStr d.title? then [{ message := .missingTitle d.id?, fatal := false }] else []) ++
    (if falsyStr d.goal? then [{ message := .missingGoal d.id?, fatal := false }] else []) ++
    (validatePatterns d.stepPatterns).map fun e => { message := .patternProblem d.id? e }

/-- The combined pattern list `executor.validate_plan` accumulates:
patterns of every step whose `allow` key is present. -/
def dCollectedPatterns (steps : List StepDoc) : List String :=
  (steps.filter fun d => !(d.allow? = none : Bool)).flatMap StepDoc.stepPatterns

/-- The changed files `validate_plan` reports as uncovered. -/
def dUncoveredFiles (steps : List StepDoc) (changed : List String) : List String :=
  changed.filter fun f => !matchesAnyPattern f (dCollectedPatterns steps)

/-- The coverage check of `validate_plan`. -/
def dCoverageErrors (steps : List StepDoc) (changed : List String) : List DValidationError :=
  if dUncoveredFiles steps changed = [] then []
  else [{ message := .notCovered (dUncoveredFiles steps changed) }]

/-- The per-step usefulness check of `validate_plan`. -/
def dUselessWarnings (steps : List StepDoc) (changed : List String) : List DValidationError :=
  steps.filterMap fun d =>
    if changed.any fun f => matchesAnyPattern f d.stepPatterns then none
    else some { message := .coversNothing d.id?, fatal := false }

/-- `executor.validate_plan(plan, changed_files)`; the plan argument is a
raw dict, modelled as a `PlanDoc`. -/
def validatePlanDict (plan : PlanDoc) (changed : List String) : List DValidationError :=
  match plan.stack? with
  | none => [{ message := .noStack }]
  | some steps =>
    if steps = [] then [{ message := .noSteps }]
    else
      steps.flatMap dStepErrors ++ dCoverageErrors steps changed ++
        dUselessWarnings steps changed

end Pullsaw

section ModelChecks

open Pullsaw

example :
    planValidate { steps := [{ id := 1, title := "t", goal := "g", allow := ["lib/a/**"] }] }
      ["lib/a/x.py"] = [] := by decide
example :
    planValidate { steps := [] } ["a.txt"] = [{ message := .noSteps }] := by decide
example :
    (planValidate { steps := [{ id := 1, title := "t", goal := "g", allow := ["lib/a/**"] }] }
      ["lib/b/x.py"]).filter (fun e => e.fatal) =
      [{ message := .notCovered ["lib/b/x.py"] }] := by decide

end ModelChecks

namespace Pullsaw

/-! ## git_ops.py — branch-name sanitization

`sanitize_branch_name` is a pipeline of three `re.sub`s and a `strip`.
Each `re.sub` replaces every maximal run of characters of one class by a
single replacement character; `squash` below is exactly that operation.
The `\\s` class of the first substitution is modelled by the ASCII
whitespace characters it matches (branch names are ASCII). -/

/-- A character of Python's `\\s` class (ASCII range). -/
def isPySpace (c : Char) : Bool :=
  c == ' ' || c == '\t' || c == '\n' || c == '\r' || c == '\x0b' || c == '\x0c'

/-- A character of the class `[\\s~^:?*\\[\\]\\\\@/]` replaced by the first
substitution of `sanitize_branch_name`. -/
def badChar (c : Char) : Bool :=
  isPySpace c || c == '~' || c == '^' || c == ':' || c == '?' || c == '*' ||
    c == '[' || c == ']' || c == '\\' || c == '@' || c == '/'

/-- Replace every maximal nonempty run of characters satisfying `p` by
the single character `c` (the effect of `re.sub(r"C+", c, s)` for a
character class `C`; with `p` holding exactly of `c` itself it is also
`re.sub(r"c\x7b2,\x7d", c, s)`, since length-1 runs are then rewritten to
themselves). -/
def squash (p : Char → Bool) (c : Char) : List Char → List Char
  | [] => []
  | [x] => if p x then [c] else [x]
  | x :: y :: xs =>
    if p x && p y then squash p c (y :: xs)
    else (if p x then c else x) :: squash p c (y :: xs)

/-- Python `str.strip(chars)`: drop characters satisfying `p` from both
ends. -/
def stripChars (p : Char → Bool) (l : List Char) : List Char :=
  ((l.dropWhile p).reverse.dropWhile p).reverse

/-- The dot character test (second substitution's class). -/
def isDot (c : Char) : Bool := c == '.'

/-- The hyphen character test (last substitution's class). -/
def isDash (c : Char) : Bool := c == '-'

/-- A dot or hyphen (the `strip(".-")` set). -/
def dotOrDash (c : Char) : Bool := c == '.' || c == '-'

/-- `sanitize_branch_name` from `pullsaw/git_ops.py`: replace runs of
problematic characters with `-`, collapse runs of dots to one dot, strip
leading/trailing dots and hyphens, collapse runs of hyphens to one
hyphen. -/
def sanitizeBranchName (name : List Char) : List Char :=
  let s1 := squash badChar '-' name
  let s2 := squash isDot '.' s1
  let s3 := stripChars dotOrDash s2
  squash isDash '-' s3

/-- `sanitize_branch_name` on `String`s (as `create_branch` uses it). -/
def sanitizeBranchNameS (name : String) : String :=
  ⟨sanitizeBranchName name.data⟩

/-! ## executor.py — command runners

`run_command` wraps `subprocess.run(cmd, capture_output=True, text=True,
timeout=timeout)`; `run_command_streaming` wraps a `Popen` polling loop.
The behaviour of the external command is abstracted as a
`CommandBehavior`: how long it would run, its exit code and output, the
output it has produced by the time a timeout would fire, and its merged
stdout+stderr line stream. -/

/-- `subprocess.CompletedProcess` restricted to the fields the code
uses. -/
structure CompletedProcess where
  returncode : Int
  stdout : String
  stderr : String
deriving DecidableEq, Repr

/-- The observable behaviour of one external command. -/
structure CommandBehavior where
  duration : Nat
  exitcode : Int
  stdout : String
  stderr : String
  partialStdout : String := ""
  outputLines : List String := []
deriving Repr

/-- `run_command(cmd, timeout)`: if the command finishes within the
timeout its result is returned; on `TimeoutExpired` a synthetic result
with exit code 124, the output captured so far, and the message
`Command timed out after <timeout>s` is returned instead of raising. -/
def runCommand (cmd : CommandBehavior) (timeout : Nat := 120) : CompletedProcess :=
  if cmd.duration ≤ timeout then
    { returncode := cmd.exitcode, stdout := cmd.stdout, stderr := cmd.stderr }
  else
    { returncode := 124
      stdout := cmd.partialStdout
      stderr := "Command timed out after " ++ toString timeout ++ "s" }

set_option linter.unusedVariables false in
/-- `run_command_streaming(cmd, timeout)`: the Python function accepts a
`timeout` argument but never reads it — its polling loop runs until the
process exits on its own, collecting every output line, and then returns
`process.returncode or 0` with the joined output. Nothing in the loop
compares elapsed time against `timeout` and nothing kills the process,
so the command's `duration` is not consulted either. -/
def runCommandStreaming (cmd : CommandBehavior) (timeout : Nat := 300) : CompletedProcess :=
  { returncode := if cmd.exitcode = 0 then 0 else cmd.exitcode
    stdout := String.join cmd.outputLines
    stderr := "" }

/-! ## executor.py — the step state machine

`execute_step` drives one step: branch creation, one agent
implementation call, then a bounded verify/fix loop, then a commit.
Everything the step observes from outside — the agent's results, the
working-tree state, and the per-attempt exit codes of the format, check
and test commands — is abstracted into a `StepEnv`; the function records
what it did as a list of `Event`s alongside its outcome. Console
printing, cost accounting and the prompt text assembled for the fix
agent (which includes `check_output`/`test_output` and the advisory
`check_allowlist` result) do not influence control flow and are not
modelled. -/

/-- `Config` from `pullsaw/config.py` (the fields `execute_step` reads). -/
structure Config where
  test_cmd : List String := ["echo", "no test command"]
  format_cmd : Option (List String) := none
  check_cmd : Option (List String) := none
  max_fix_attempts : Nat := 5
  strict : Bool := false
  test_timeout : Nat := 300
  command_timeout : Nat := 120
deriving Repr

/-- The result shape of one agent invocation (`claude_code.ClaudeResult`,
restricted to the fields `execute_step` branches on). -/
structure ClaudeResult where
  success : Bool
  session_id : Option String := none
  error : Option String := none
deriving Repr

/-- The environment a step execution observes. -/
structure StepEnv where
  implResult : ClaudeResult
  changedAfterImpl : List String
  formatRc : Nat → Int
  checkRc : Nat → Int
  testRc : Nat → Int
  fixSuccess : Nat → Bool

/-- What `execute_step` did, in order. -/
inductive Event where
  | branchCreated (name : String) : Event
  | implemented (success : Bool) : Event
  | attemptStarted (k : Nat) : Event
  | formatRan (rc : Int) : Event
  | checkRan (rc : Int) : Event
  | testRan (rc : Int) : Event
  | fixInvoked (k : Nat) : Event
  | committed : Event
deriving DecidableEq, Repr

/-- One iteration of the fix loop up to the pass/fail decision: run the
format command if configured (its exit code is only recorded), run the
check command if configured, and run the test command only when the
check did not fail. Returns the events plus the two failure flags. -/
def runAttempt (cfg : Config) (env : StepEnv) (k : Nat) : List Event × Bool × Bool :=
  let evFormat : List Event :=
    match cfg.format_cmd with
    | some _ => [.formatRan (env.formatRc k)]
    | none => []
  let checkFailed : Bool :=
    match cfg.check_cmd with
    | some _ => env.checkRc k != 0
    | none => false
  let evCheck : List Event :=
    match cfg.check_cmd with
    | some _ => [.checkRan (env.checkRc k)]
    | none => []
  let testFailed : Bool := if checkFailed then false else env.testRc k != 0
  let evTest : List Event := if checkFailed then [] else [.testRan (env.testRc k)]
  (Event.attemptStarted k :: evFormat ++ evCheck ++ evTest, checkFailed, testFailed)

/-- The fix loop `for attempt in range(max_fix_attempts)`, written with
the number of remaining iterations as the recursion measure
(`remaining = max_fix_attempts - attempt`). An attempt that passes both
stages breaks out (second component `false`); a failing attempt with
`attempt + 1 >= max_fix_attempts` raises the fatal max-attempts error
(second component `true`); otherwise the fix agent is invoked (its own
success flag is only logged by the code) and the loop continues. -/
def fixLoopAux (cfg : Config) (env : StepEnv) : Nat → Nat → List Event × Bool
  | _, 0 => ([], false)
  | attempt, remaining + 1 =>
    let r := runAttempt cfg env attempt
    if !r.2.1 && !r.2.2 then (r.1, false)
    else if remaining = 0 then (r.1, true)
    else
      let rest := fixLoopAux cfg env (attempt + 1) remaining
      (r.1 ++ Event.fixInvoked attempt :: rest.1, rest.2)

/-- The whole fix loop of `execute_step`, from attempt 0. -/
def fixLoop (cfg : Config) (env : StepEnv) : List Event × Bool :=
  fixLoopAux cfg env 0 cfg.max_fix_attempts

/-- How one `execute_step` call ends. -/
inductive StepOutcome where
  | committed (branch : String) (topic : String) : StepOutcome
  | implFailed (stepId : Int) : StepOutcome
  | maxAttempts (stepId : Int) (n : Nat) : StepOutcome
deriving DecidableEq, Repr

/-- The tail of `execute_step` shared by every non-aborting path: run
the fix loop; a raised max-attempts error propagates (outcome
`maxAttempts`), otherwise stage-all-and-commit with the step topic
`step.get("topic", f"<head>-step-<id>")`. -/
def stepFinish (step : Step) (origHead : String) (cfg : Config) (env : StepEnv)
    (actualBranch : String) (pre : List Event) : List Event × StepOutcome :=
  let loop := fixLoop cfg env
  if loop.2 then (pre ++ loop.1, .maxAttempts step.id cfg.max_fix_attempts)
  else (pre ++ loop.1 ++ [.committed],
        .committed actualBranch (step.topic.getD (origHead ++ "-step-" ++ toString step.id)))

/-- `execute_step(step, prev_branch, original_head, config, ...)`.
In retry mode the existing branch `<head>-step-<id>` is reused and the
implementation phase is skipped. Otherwise the branch is created (its
name sanitized by `create_branch`) and the agent implements the step
once: on reported failure with a clean working tree the step aborts
with the fatal implementation error; on reported failure with changes
present execution proceeds into the fix loop anyway. -/
def executeStep (step : Step) (origHead : String) (cfg : Config) (env : StepEnv)
    (isRetry : Bool) : List Event × StepOutcome :=
  let branchName := origHead ++ "-step-" ++ toString step.id
  if isRetry then
    stepFinish step origHead cfg env branchName []
  else
    let actualBranch := sanitizeBranchNameS branchName
    let pre := [Event.branchCreated actualBranch,
                Event.implemented env.implResult.success]
    if env.implResult.success then stepFinish step origHead cfg env actualBranch pre
    else if env.changedAfterImpl = [] then (pre, .implFailed step.id)
    else stepFinish step origHead cfg env actualBranch pre

end Pullsaw

section ExecutorChecks

open Pullsaw

example :
    runCommand { duration := 20, exitcode := 0, stdout := "hello", stderr := "" } 10 =
      { returncode := 124, stdout := "", stderr := "Command timed out after 10s" } := by
  decide

example :
    sanitizeBranchNameS "feature branch" = "feature-branch" := by decide
example : sanitizeBranchNameS "a  b  c" = "a-b-c" := by decide
example : sanitizeBranchNameS "feature[name]" = "feature-name" := by decide
example : sanitizeBranchNameS "user/feature/name" = "user-feature-name" := by decide
example : sanitizeBranchNameS "a...b" = "a.b" := by decide
example : sanitizeBranchNameS ".feature" = "feature" := by decide
example : sanitizeBranchNameS "feature-" = "feature" := by decide
example : sanitizeBranchNameS "feature~1" = "feature-1" := by decide

end ExecutorChecks

namespace Pullsaw

/-! ## Helper notions for the executor theorems -/

/-- Is an event the start of a verification attempt (one fix-loop
iteration)? -/
def isAttemptEv : Event → Bool
  | .attemptStarted _ => true
  | _ => false

/-- Is an event a fix-agent invocation? -/
def isFixEv : Event → Bool
  | .fixInvoked _ => true
  | _ => false

/-- The number of verification attempts recorded in an event list. -/
def countAttempts (evs : List Event) : Nat := (evs.filter isAttemptEv).length

/-- The number of fix-agent invocations recorded in an event list. -/
def countFixes (evs : List Event) : Nat := (evs.filter isFixEv).length

/-- Attempt `k` fails verification: either a check command is configured
and exits non-zero, or the check stage does not fail (absent or passing)
and the test command exits non-zero. -/
def verificationFails (cfg : Config) (env : StepEnv) (k : Nat) : Prop :=
  (cfg.check_cmd ≠ none ∧ env.checkRc k ≠ 0) ∨
    ((cfg.check_cmd = none ∨ env.checkRc k = 0) ∧ env.testRc k ≠ 0)

theorem countAttempts_append (l₁ l₂ : List Event) :
    countAttempts (l₁ ++ l₂) = countAttempts l₁ + countAttempts l₂ := by
  simp [countAttempts, List.filter_append]

theorem countFixes_append (l₁ l₂ : List Event) :
    countFixes (l₁ ++ l₂) = countFixes l₁ + countFixes l₂ := by
  simp [countFixes, List.filter_append]

theorem countAttempts_runAttempt (cfg : Config) (env : StepEnv) (k : Nat) :
    countAttempts (runAttempt cfg env k).1 = 1 := by
  unfold runAttempt
  cases cfg.format_cmd <;> cases cfg.check_cmd <;>
    simp [countAttempts, isAttemptEv]

theorem countFixes_runAttempt (cfg : Config) (env : StepEnv) (k : Nat) :
    countFixes (runAttempt cfg env k).1 = 0 := by
  unfold runAttempt
  cases cfg.format_cmd <;> cases cfg.check_cmd <;>
    simp [countFixes, isFixEv]

theorem countAttempts_cons_fix (k : Nat) (l : List Event) :
    countAttempts (Event.fixInvoked k :: l) = countAttempts l := by
  simp [countAttempts, isAttemptEv]

theorem countFixes_cons_fix (k : Nat) (l : List Event) :
    countFixes (Event.fixInvoked k :: l) = countFixes l + 1 := by
  simp [countFixes, isFixEv]

theorem runAttempt_flags (cfg : Config) (env : StepEnv) (k : Nat) :
    ((runAttempt cfg env k).2.1 = true ∨ (runAttempt cfg env k).2.2 = true) ↔
      verificationFails cfg env k := by
  unfold runAttempt verificationFails
  cases hc : cfg.check_cmd <;> simp [hc, bne_iff_ne]

theorem runAttempt_mem_attempt (cfg : Config) (env : StepEnv) (k : Nat) :
    Event.attemptStarted k ∈ (runAttempt cfg env k).1 := by
  unfold runAttempt
  cases cfg.format_cmd <;> cases cfg.check_cmd <;> simp

/-- The one-step unfolding of `fixLoopAux` on a positive remaining
count. -/
theorem fixLoopAux_succ (cfg : Config) (env : StepEnv) (a n : Nat) :
    fixLoopAux cfg env a (n + 1) =
      if (!(runAttempt cfg env a).2.1 && !(runAttempt cfg env a).2.2) = true
      then ((runAttempt cfg env a).1, false)
      else if n = 0 then ((runAttempt cfg env a).1, true)
      else ((runAttempt cfg env a).1 ++
              Event.fixInvoked a :: (fixLoopAux cfg env (a + 1) n).1,
            (fixLoopAux cfg env (a + 1) n).2) :=
  rfl

/-- When every attempt in the window `[a, a + m)` fails and the window is
nonempty, the loop raises, having started exactly `m` attempts and
invoked the fix agent exactly `m - 1` times. -/
theorem fixLoopAux_all_fail (cfg : Config) (env : StepEnv) :
    ∀ (m a : Nat), 1 ≤ m →
      (∀ k, a ≤ k → k < a + m → verificationFails cfg env k) →
      (fixLoopAux cfg env a m).2 = true ∧
        countAttempts (fixLoopAux cfg env a m).1 = m ∧
        countFixes (fixLoopAux cfg env a m).1 = m - 1 := by
  intro m
  induction m with
  | zero => intro a h; omega
  | succ n ih =>
    intro a _ hfail
    have hfa : verificationFails cfg env a := hfail a le_rfl (by omega)
    have hflag := (runAttempt_flags cfg env a).mpr hfa
    have hcond : (!(runAttempt cfg env a).2.1 && !(runAttempt cfg env a).2.2) = false := by
      rcases hflag with h | h <;> simp [h]
    cases n with
    | zero =>
      rw [fixLoopAux_succ]
      simp only [hcond, Bool.false_eq_true, if_false, if_pos rfl]
      refine ⟨rfl, ?_, ?_⟩
      · simpa using countAttempts_runAttempt cfg env a
      · simpa using countFixes_runAttempt cfg env a
    | succ n' =>
      have hne : ¬ (n' + 1 = 0) := by omega
      have ihx := ih (a + 1) (by omega) (fun k hk1 hk2 => hfail k (by omega) (by omega))
      rw [fixLoopAux_succ]
      simp only [hcond, Bool.false_eq_true, if_false, if_neg hne]
      refine ⟨ihx.1, ?_, ?_⟩
      · rw [countAttempts_append, countAttempts_cons_fix,
          countAttempts_runAttempt, ihx.2.1]
        omega
      · rw [countFixes_append, countFixes_cons_fix,
          countFixes_runAttempt, ihx.2.2]
        omega

/-- The loop never invokes the fix agent more often than it has
remaining iterations, whatever the environment does. -/
theorem fixLoopAux_fix_bound (cfg : Config) (env : StepEnv) :
    ∀ (m a : Nat), countFixes (fixLoopAux cfg env a m).1 ≤ m := by
  intro m
  induction m with
  | zero => intro a; simp [fixLoopAux, countFixes]
  | succ n ih =>
    intro a
    rw [fixLoopAux_succ]
    split
    · simp [countFixes_runAttempt]
    · split
      · simp [countFixes_runAttempt]
      · rw [countFixes_append, countFixes_cons_fix, countFixes_runAttempt]
        have := ih (a + 1)
        omega

theorem fixLoopAux_mem_attempt (cfg : Config) (env : StepEnv) :
    ∀ (m a : Nat), 1 ≤ m → Event.attemptStarted a ∈ (fixLoopAux cfg env a m).1 := by
  intro m a h
  cases m with
  | zero => omega
  | succ n =>
    rw [fixLoopAux_succ]
    split
    · exact runAttempt_mem_attempt cfg env a
    · split
      · exact runAttempt_mem_attempt cfg env a
      · exact List.mem_append_left _ (runAttempt_mem_attempt cfg env a)


theorem countAttempts_pre (b : String) (x : Bool) :
    countAttempts [Event.branchCreated b, Event.implemented x] = 0 := by
  simp [countAttempts, isAttemptEv]

theorem countFixes_pre (b : String) (x : Bool) :
    countFixes [Event.branchCreated b, Event.implemented x] = 0 := by
  simp [countFixes, isFixEv]

theorem countFixes_commit : countFixes [Event.committed] = 0 := by
  simp [countFixes, isFixEv]

theorem countAttempts_commit : countAttempts [Event.committed] = 0 := by
  simp [countAttempts, isAttemptEv]

theorem countFixes_nil : countFixes [] = 0 := rfl

theorem countAttempts_nil : countAttempts [] = 0 := rfl

/-- The fix-invocation count of `stepFinish` is that of its prelude plus
that of the loop. -/
theorem stepFinish_fix_count (step : Step) (origHead : String) (cfg : Config)
    (env : StepEnv) (b : String) (pre : List Event) :
    countFixes (stepFinish step origHead cfg env b pre).1 =
      countFixes pre + countFixes (fixLoop cfg env).1 := by
  unfold stepFinish
  dsimp only
  split <;> simp [countFixes_append, countFixes_commit]

/-- Whatever the environment reports, a single `execute_step` call never
invokes the fix agent more than `max_fix_attempts` times. -/
theorem executeStep_fix_bound (step : Step) (origHead : String) (cfg : Config)
    (env : StepEnv) (isRetry : Bool) :
    countFixes (executeStep step origHead cfg env isRetry).1 ≤ cfg.max_fix_attempts := by
  have hb : countFixes (fixLoop cfg env).1 ≤ cfg.max_fix_attempts :=
    fixLoopAux_fix_bound cfg env cfg.max_fix_attempts 0
  unfold executeStep
  cases isRetry <;> split_ifs <;> dsimp only <;>
    simp only [stepFinish_fix_count, countFixes_pre, countFixes_nil,
      Nat.zero_add, Nat.add_zero] <;>
    first
      | exact hb
      | exact Nat.zero_le _

/-! ## Claim theorems: the executor (C2, C5, C8, C9) -/

/-- A command behaving like `sleep 600`: it needs 600 seconds of wall
clock, exits 0, and prints nothing. -/
def slowCommand : CommandBehavior :=
  { duration := 600, exitcode := 0, stdout := "", stderr := "" }

/-- C2: the spec requires both execution modes to enforce the wall-clock
timeout with a synthesized exit-124 failure. The buffered mode does:
`run_command` on a 600-second command with a 300-second timeout returns
exit code 124 and the timeout message. The streaming mode does not: on
the same command and timeout, `run_command_streaming` ignores its
`timeout` argument entirely (the definition never reads it, mirroring
the Python function body), streams until the process exits on its own,
and returns the command's real exit code 0, never 124. -/
theorem c2_streaming_timeout_not_enforced :
    runCommand slowCommand 300 =
      { returncode := 124, stdout := "",
        stderr := "Command timed out after 300s" } ∧
    runCommandStreaming slowCommand 300 =
      { returncode := 0, stdout := "", stderr := "" } ∧
    (runCommandStreaming slowCommand 300).returncode ≠ 124 ∧
    (∀ t : Nat, runCommandStreaming slowCommand t = runCommandStreaming slowCommand 300) := by
  exact ⟨by decide, rfl, by decide, fun t => rfl⟩

/-- C5: with `max_fix_attempts = n ≥ 1`, a step that reaches
verification and whose check-or-test verification fails on every
attempt raises the fatal max-attempts error naming the step after
exactly `n` verification attempts, with exactly `n - 1` fix-agent
invocations; and no run of `execute_step` ever invokes the fix agent
more than `n` times. -/
theorem c5_exhausts_attempts (step : Step) (origHead : String) (cfg : Config)
    (env : StepEnv) (isRetry : Bool)
    (hn : 1 ≤ cfg.max_fix_attempts)
    (hreach : isRetry = true ∨ env.implResult.success = true ∨ env.changedAfterImpl ≠ [])
    (hfail : ∀ k, k < cfg.max_fix_attempts → verificationFails cfg env k) :
    (executeStep step origHead cfg env isRetry).2 =
        StepOutcome.maxAttempts step.id cfg.max_fix_attempts ∧
      countAttempts (executeStep step origHead cfg env isRetry).1 = cfg.max_fix_attempts ∧
      countFixes (executeStep step origHead cfg env isRetry).1 = cfg.max_fix_attempts - 1 ∧
      (∀ env' : StepEnv,
        countFixes (executeStep step origHead cfg env' isRetry).1 ≤ cfg.max_fix_attempts) := by
  have hloop := fixLoopAux_all_fail cfg env cfg.max_fix_attempts 0 hn
    (fun k h1 h2 => hfail k (by omega))
  have hl2 : (fixLoop cfg env).2 = true := hloop.1
  have hca : countAttempts (fixLoop cfg env).1 = cfg.max_fix_attempts := hloop.2.1
  have hcf : countFixes (fixLoop cfg env).1 = cfg.max_fix_attempts - 1 := hloop.2.2
  have hfin : ∀ b pre, stepFinish step origHead cfg env b pre =
      (pre ++ (fixLoop cfg env).1, .maxAttempts step.id cfg.max_fix_attempts) := by
    intro b pre
    unfold stepFinish
    dsimp only
    rw [if_pos hl2]
  obtain ⟨pre, hp1, hp2, heq⟩ : ∃ pre, countAttempts pre = 0 ∧ countFixes pre = 0 ∧
      executeStep step origHead cfg env isRetry =
        (pre ++ (fixLoop cfg env).1, .maxAttempts step.id cfg.max_fix_attempts) := by
    cases isRetry with
    | true =>
      exact ⟨[], countAttempts_nil, countFixes_nil, by
        simp only [executeStep, if_true]
        exact hfin _ _⟩
    | false =>
      cases hs : env.implResult.success with
      | true =>
        refine ⟨[Event.branchCreated
            (sanitizeBranchNameS (origHead ++ "-step-" ++ toString step.id)),
          Event.implemented true], countAttempts_pre _ _, countFixes_pre _ _, ?_⟩
        simp only [executeStep, hs, Bool.false_eq_true, if_false, if_true]
        exact hfin _ _
      | false =>
        have hch : ¬ (env.changedAfterImpl = []) := by
          rcases hreach with h | h | h
          · exact absurd h (by simp)
          · rw [hs] at h; exact absurd h (by simp)
          · exact h
        refine ⟨[Event.branchCreated
            (sanitizeBranchNameS (origHead ++ "-step-" ++ toString step.id)),
          Event.implemented false], countAttempts_pre _ _, countFixes_pre _ _, ?_⟩
        simp only [executeStep, hs, Bool.false_eq_true, if_false, if_neg hch]
        exact hfin _ _
  refine ⟨?_, ?_, ?_, fun env' => executeStep_fix_bound step origHead cfg env' isRetry⟩
  · rw [heq]
  · rw [heq]
    dsimp only
    rw [countAttempts_append, hp1, hca, Nat.zero_add]
  · rw [heq]
    dsimp only
    rw [countFixes_append, hp2, hcf, Nat.zero_add]

/-- A concrete step, configuration and environment exercising C5: no
check command, a test command that always fails, three allowed
attempts. -/
def c5Step : Step := { id := 1, title := "T", goal := "G", allow := ["lib/a/**"] }

def c5Cfg : Config := { max_fix_attempts := 3 }

def c5Env : StepEnv :=
  { implResult := { success := true }
    changedAfterImpl := []
    formatRc := fun _ => 0
    checkRc := fun _ => 0
    testRc := fun _ => 1
    fixSuccess := fun _ => true }

/-- Witness for C5 at a concrete input. -/
theorem c5_exhausts_attempts_witness :
    1 ≤ c5Cfg.max_fix_attempts ∧
      ((executeStep c5Step "feature" c5Cfg c5Env false).2 =
          StepOutcome.maxAttempts c5Step.id c5Cfg.max_fix_attempts ∧
        countAttempts (executeStep c5Step "feature" c5Cfg c5Env false).1 =
          c5Cfg.max_fix_attempts ∧
        countFixes (executeStep c5Step "feature" c5Cfg c5Env false).1 =
          c5Cfg.max_fix_attempts - 1 ∧
        (∀ env' : StepEnv,
          countFixes (executeStep c5Step "feature" c5Cfg env' false).1 ≤
            c5Cfg.max_fix_attempts)) :=
  ⟨by decide, c5_exhausts_attempts c5Step "feature" c5Cfg c5Env false (by decide)
    (Or.inr (Or.inl rfl))
    (fun k hk => Or.inr ⟨Or.inl rfl, by simp [c5Env]⟩)⟩

/-- C8: in the implementing phase (not retry mode), an agent-reported
failure with a clean working tree aborts the step with the fatal
implementation error before any verification attempt; an agent-reported
failure with at least one changed file instead proceeds into the
verification/fix loop (the outcome is never the implementation-failure
abort, and with a positive attempt budget the first verification
attempt is actually started). -/
theorem c8_impl_failure_paths (step : Step) (origHead : String) (cfg : Config)
    (env : StepEnv) (hfail : env.implResult.success = false) :
    (env.changedAfterImpl = [] →
       executeStep step origHead cfg env false =
         ([Event.branchCreated
             (sanitizeBranchNameS (origHead ++ "-step-" ++ toString step.id)),
           Event.implemented false], .implFailed step.id)) ∧
    (env.changedAfterImpl ≠ [] →
       (executeStep step origHead cfg env false).2 ≠ .implFailed step.id ∧
       (1 ≤ cfg.max_fix_attempts →
          Event.attemptStarted 0 ∈ (executeStep step origHead cfg env false).1)) := by
  constructor
  · intro hch
    simp only [executeStep, hfail, Bool.false_eq_true, if_false, if_pos hch]
  · intro hch
    have heq : executeStep step origHead cfg env false =
        stepFinish step origHead cfg env
          (sanitizeBranchNameS (origHead ++ "-step-" ++ toString step.id))
          [Event.branchCreated
             (sanitizeBranchNameS (origHead ++ "-step-" ++ toString step.id)),
           Event.implemented false] := by
      simp only [executeStep, hfail, Bool.false_eq_true, if_false, if_neg hch]
    rw [heq]
    constructor
    · unfold stepFinish
      dsimp only
      split <;> simp
    · intro hn
      have hmem : Event.attemptStarted 0 ∈ (fixLoop cfg env).1 :=
        fixLoopAux_mem_attempt cfg env cfg.max_fix_attempts 0 hn
      unfold stepFinish
      dsimp only
      split <;> simp [hmem]

/-- A concrete environment exercising C8: the agent reports failure and
the working tree is clean. -/
def c8Env : StepEnv :=
  { implResult := { success := false, error := some "agent timed out" }
    changedAfterImpl := []
    formatRc := fun _ => 0
    checkRc := fun _ => 0
    testRc := fun _ => 0
    fixSuccess := fun _ => true }

/-- Witness for C8 at a concrete input. -/
theorem c8_impl_failure_paths_witness :
    c8Env.implResult.success = false ∧
      ((c8Env.changedAfterImpl = [] →
         executeStep c5Step "feature" c5Cfg c8Env false =
           ([Event.branchCreated
               (sanitizeBranchNameS ("feature" ++ "-step-" ++ toString c5Step.id)),
             Event.implemented false], .implFailed c5Step.id)) ∧
       (c8Env.changedAfterImpl ≠ [] →
         (executeStep c5Step "feature" c5Cfg c8Env false).2 ≠ .implFailed c5Step.id ∧
         (1 ≤ c5Cfg.max_fix_attempts →
            Event.attemptStarted 0 ∈ (executeStep c5Step "feature" c5Cfg c8Env false).1))) :=
  ⟨rfl, c8_impl_failure_paths c5Step "feature" c5Cfg c8Env rfl⟩

/-- The environment's format results influence neither the pass/fail
flags of an attempt nor whether the loop raises. -/
theorem runAttempt_format_inv (cfg : Config) (env : StepEnv) (g : Nat → Int) (k : Nat) :
    (runAttempt cfg { env with formatRc := g } k).2 = (runAttempt cfg env k).2 := by
  simp [runAttempt]

theorem fixLoopAux_format_inv (cfg : Config) (env : StepEnv) (g : Nat → Int) :
    ∀ (m a : Nat),
      (fixLoopAux cfg { env with formatRc := g } a m).2 = (fixLoopAux cfg env a m).2 := by
  intro m
  induction m with
  | zero => intro a; rfl
  | succ n ih =>
    intro a
    have h2 := runAttempt_format_inv cfg env g a
    have h21 : (runAttempt cfg { env with formatRc := g } a).2.1 =
        (runAttempt cfg env a).2.1 := by rw [h2]
    have h22 : (runAttempt cfg { env with formatRc := g } a).2.2 =
        (runAttempt cfg env a).2.2 := by rw [h2]
    rw [fixLoopAux_succ, fixLoopAux_succ, h21, h22]
    split
    · rfl
    · split
      · rfl
      · simpa using ih (a + 1)

/-- C9: within any verification attempt, the format command's outcome
never blocks — an attempt's pass/fail flags, and whether the whole loop
raises, are unchanged under arbitrary replacement of the format exit
codes; and the test command runs in an attempt exactly when no
configured check command failed there: with a configured, failing check
the attempt runs no test command at all, while with a passing or absent
check stage the test run is recorded. -/
theorem c9_format_and_check_gating (cfg : Config) (env : StepEnv) (k : Nat) :
    (∀ g : Nat → Int,
       (runAttempt cfg { env with formatRc := g } k).2 = (runAttempt cfg env k).2 ∧
       (fixLoop cfg { env with formatRc := g }).2 = (fixLoop cfg env).2) ∧
    (∀ c, cfg.check_cmd = some c → env.checkRc k ≠ 0 →
       ∀ rc, Event.testRan rc ∉ (runAttempt cfg env k).1) ∧
    ((cfg.check_cmd = none ∨ env.checkRc k = 0) →
       Event.testRan (env.testRc k) ∈ (runAttempt cfg env k).1) := by
  refine ⟨fun g => ⟨runAttempt_format_inv cfg env g k, ?_⟩, ?_, ?_⟩
  · exact fixLoopAux_format_inv cfg env g cfg.max_fix_attempts 0
  · intro c hc hrc rc
    unfold runAttempt
    have : (env.checkRc k != 0) = true := by simpa [bne_iff_ne] using hrc
    cases cfg.format_cmd <;> simp [hc, this]
  · rintro (hc | hc)
    · unfold runAttempt
      cases cfg.format_cmd <;> simp [hc]
    · unfold runAttempt
      have : (env.checkRc k != 0) = false := by simp [bne, hc]
      cases cfg.format_cmd <;> cases cfg.check_cmd <;> simp [this]


end Pullsaw

namespace Pullsaw

/-! ## Claim theorems: plan validation (C3, C4, C10) -/

/-- The union of `allow ∪ shared_allow` over all steps of a plan — the
"combined patterns" of the specification (the code's collected list
`collectedPatterns` omits the steps skipped for an empty `allow`). -/
def combinedPatterns (steps : List Step) : List String :=
  steps.flatMap Step.allPatterns

/-- Is a validation error the coverage error? -/
def isCoverageErr (e : ValidationError) : Bool :=
  match e.message with
  | .notCovered _ => true
  | _ => false

theorem matchesAnyPattern_mono {f : String} {ps qs : List String}
    (hsub : ∀ q ∈ ps, q ∈ qs) (h : matchesAnyPattern f ps = true) :
    matchesAnyPattern f qs = true := by
  unfold matchesAnyPattern at h ⊢
  rcases List.any_eq_true.mp h with ⟨q, hq, hm⟩
  exact List.any_eq_true.mpr ⟨q, hsub q hq, hm⟩

theorem collected_sub_combined (steps : List Step) :
    ∀ q ∈ collectedPatterns steps, q ∈ combinedPatterns steps := by
  intro q hq
  rcases List.mem_flatMap.mp hq with ⟨t, ht, hqt⟩
  exact List.mem_flatMap.mpr ⟨t, (List.mem_filter.mp ht).1, hqt⟩

theorem collected_eq_combined {steps : List Step}
    (h : ∀ s ∈ steps, s.allow ≠ []) :
    collectedPatterns steps = combinedPatterns steps := by
  unfold collectedPatterns combinedPatterns
  congr 1
  exact List.filter_eq_self.mpr fun s hs => by
    simpa using h s hs

/-- Exactly which errors one step can contribute. -/
theorem stepErrors_cases {s : Step} {e : ValidationError} (he : e ∈ stepErrors s) :
    (s.allow = [] ∧ e = { message := .missingAllow s.id, fatal := true }) ∨
    (s.allow ≠ [] ∧
      (e = { message := .missingTitle s.id, fatal := false } ∨
       e = { message := .missingGoal s.id, fatal := false } ∨
       ∃ pe ∈ validatePatterns s.allPatterns,
         e = { message := .patternProblem s.id pe, fatal := true })) := by
  unfold stepErrors at he
  by_cases h : s.allow = []
  · rw [if_pos h] at he
    exact Or.inl ⟨h, by simpa using he⟩
  · rw [if_neg h] at he
    refine Or.inr ⟨h, ?_⟩
    rcases List.mem_append.mp he with h1 | h2
    · rcases List.mem_append.mp h1 with h3 | h4
      · split at h3 <;> simp_all
      · split at h4 <;> simp_all
    · rcases List.mem_map.mp h2 with ⟨pe, hpe, rfl⟩
      exact Or.inr (Or.inr ⟨pe, hpe, rfl⟩)

theorem stepErrors_not_coverage {s : Step} {e : ValidationError}
    (he : e ∈ stepErrors s) : isCoverageErr e = false := by
  rcases stepErrors_cases he with ⟨_, rfl⟩ | ⟨_, rfl | rfl | ⟨pe, _, rfl⟩⟩ <;>
    simp [isCoverageErr]

theorem uselessWarnings_cases {steps : List Step} {changed : List String}
    {e : ValidationError} (he : e ∈ uselessWarnings steps changed) :
    ∃ s ∈ steps, e = { message := .coversNothing s.id, fatal := false } := by
  unfold uselessWarnings at he
  rcases List.mem_filterMap.mp he with ⟨s, hs, hse⟩
  refine ⟨s, hs, ?_⟩
  by_cases h : (changed.any fun f => matchesAnyPattern f s.allPatterns) = true
  · rw [if_pos h] at hse; cases hse
  · rw [if_neg h] at hse; exact (Option.some_inj.mp hse).symm

theorem validatePatterns_eq_nil {pats : List String}
    (h : ∀ q ∈ pats, q ≠ "" ∧ q ≠ "**" ∧ q ≠ "**/*") :
    validatePatterns pats = [] := by
  unfold validatePatterns
  rw [List.filterMap_eq_nil_iff]
  intro q hq
  rcases h q hq with ⟨h1, h2, h3⟩
  simp [h1, h2, h3]

/-- C3 (amended): for a plan with a nonempty step list in which,
additionally, every step has a nonempty `allow` list and no pattern is
empty or bare `**`/`**/*`, full coverage of the changed files by the
combined `allow ∪ shared_allow` patterns implies that `validate()`
returns no fatal error: every remaining error has `fatal = False`. -/
theorem c3_no_fatal_when_covered (p : Plan) (changed : List String)
    (hne : p.steps ≠ [])
    (hallow : ∀ s ∈ p.steps, s.allow ≠ [])
    (hpat : ∀ s ∈ p.steps, ∀ q ∈ s.allPatterns, q ≠ "" ∧ q ≠ "**" ∧ q ≠ "**/*")
    (hcov : ∀ f ∈ changed, matchesAnyPattern f (combinedPatterns p.steps) = true) :
    ∀ e ∈ planValidate p changed, e.fatal = false := by
  intro e he
  unfold planValidate at he
  rw [if_neg hne] at he
  have hunc : uncoveredFiles p.steps changed = [] := by
    unfold uncoveredFiles
    rw [List.filter_eq_nil_iff]
    intro f hf
    rw [collected_eq_combined hallow, hcov f hf]
    simp
  rcases List.mem_append.mp he with h1 | h2
  · rcases List.mem_append.mp h1 with h3 | h4
    · rcases List.mem_flatMap.mp h3 with ⟨s, hs, hes⟩
      rcases stepErrors_cases hes with ⟨hemp, _⟩ | ⟨_, rfl | rfl | ⟨pe, hpe, _⟩⟩
      · exact absurd hemp (hallow s hs)
      · rfl
      · rfl
      · rw [validatePatterns_eq_nil (hpat s hs)] at hpe
        cases hpe
    · unfold coverageErrors at h4
      rw [if_pos hunc] at h4
      cases h4
  · rcases uselessWarnings_cases h2 with ⟨s, _, rfl⟩
    rfl

/-- Witness plan for C3: one step covering the single changed file. -/
def c3CovPlan : Plan :=
  { steps := [{ id := 1, title := "t", goal := "g", allow := ["a/**"] }] }

/-- Witness for C3 (amended) at a concrete input. -/
theorem c3_no_fatal_when_covered_witness :
    c3CovPlan.steps ≠ [] ∧ (∀ e ∈ planValidate c3CovPlan ["a/x"], e.fatal = false) :=
  ⟨by decide, c3_no_fatal_when_covered c3CovPlan ["a/x"] (by decide) (by decide)
    (by decide) (by decide)⟩

/-- Counterexample to C3 as stated: a plan whose combined patterns cover
every changed file but whose first step has an empty `allow` list;
`validate()` still returns a fatal missing-allow error. -/
theorem c3_counterexample_missing_allow :
    (({ steps := [{ id := 1, title := "t", goal := "g", allow := [] },
                  { id := 2, title := "t", goal := "g", allow := ["a/**"] }] } :
        Plan).steps ≠ []) ∧
    (∀ f ∈ ["a/x"],
      matchesAnyPattern f
        (combinedPatterns
          [{ id := 1, title := "t", goal := "g", allow := [] },
           { id := 2, title := "t", goal := "g", allow := ["a/**"] }]) = true) ∧
    (∃ e ∈ planValidate
        { steps := [{ id := 1, title := "t", goal := "g", allow := [] },
                    { id := 2, title := "t", goal := "g", allow := ["a/**"] }] }
        ["a/x"], e.fatal = true) := by
  decide

/-- C4 (amended): for a plan with at least one step, if some changed file
matches none of the combined patterns of all steps, `validate()` emits
exactly one coverage error, it is fatal, and its file list contains
every changed file that matches none of the combined patterns. -/
theorem c4_single_coverage_error (p : Plan) (changed : List String)
    (hne : p.steps ≠ [])
    (hmiss : ∃ f ∈ changed, matchesAnyPattern f (combinedPatterns p.steps) = false) :
    ∃ fs, (planValidate p changed).filter isCoverageErr =
        [{ message := Msg.notCovered fs, fatal := true }] ∧
      ∀ f ∈ changed, matchesAnyPattern f (combinedPatterns p.steps) = false → f ∈ fs := by
  have huncov : ∀ f ∈ changed, matchesAnyPattern f (combinedPatterns p.steps) = false →
      f ∈ uncoveredFiles p.steps changed := by
    intro f hf hm
    unfold uncoveredFiles
    rw [List.mem_filter]
    refine ⟨hf, ?_⟩
    have hfalse : matchesAnyPattern f (collectedPatterns p.steps) = false := by
      cases hcase : matchesAnyPattern f (collectedPatterns p.steps) with
      | false => rfl
      | true =>
        have := matchesAnyPattern_mono (collected_sub_combined p.steps) hcase
        rw [this] at hm
        cases hm
    simp [hfalse]
  have hune : uncoveredFiles p.steps changed ≠ [] := by
    rcases hmiss with ⟨f, hf, hm⟩
    intro h0
    have := huncov f hf hm
    rw [h0] at this
    cases this
  refine ⟨uncoveredFiles p.steps changed, ?_, huncov⟩
  unfold planValidate
  rw [if_neg hne, List.filter_append, List.filter_append]
  have h1 : List.filter isCoverageErr (p.steps.flatMap stepErrors) = [] := by
    rw [List.filter_eq_nil_iff]
    intro e he
    rcases List.mem_flatMap.mp he with ⟨s, _, hes⟩
    simp [stepErrors_not_coverage hes]
  have h3 : List.filter isCoverageErr (uselessWarnings p.steps changed) = [] := by
    rw [List.filter_eq_nil_iff]
    intro e he
    rcases uselessWarnings_cases he with ⟨s, _, rfl⟩
    simp [isCoverageErr]
  have h2 : List.filter isCoverageErr (coverageErrors p.steps changed) =
      [{ message := Msg.notCovered (uncoveredFiles p.steps changed), fatal := true }] := by
    unfold coverageErrors
    rw [if_neg hune]
    simp [isCoverageErr]
  rw [h1, h2, h3]
  simp

/-- Witness plan for C4: one step not covering the changed file. -/
def c4Plan : Plan :=
  { steps := [{ id := 1, title := "t", goal := "g", allow := ["a/**"] }] }

/-- Witness for C4 (amended) at a concrete input. -/
theorem c4_single_coverage_error_witness :
    c4Plan.steps ≠ [] ∧
      (∃ fs, (planValidate c4Plan ["b.txt"]).filter isCoverageErr =
          [{ message := Msg.notCovered fs, fatal := true }] ∧
        ∀ f ∈ ["b.txt"],
          matchesAnyPattern f (combinedPatterns c4Plan.steps) = false → f ∈ fs) :=
  ⟨by decide, c4_single_coverage_error c4Plan ["b.txt"] (by decide)
    ⟨"b.txt", by decide, by decide⟩⟩

/-- Counterexample to C4 as stated: an empty plan with a changed file
that matches none of the (vacuously empty) combined patterns;
`validate()` returns only the no-steps error — zero coverage errors,
and no error names the file. -/
theorem c4_counterexample_empty_plan :
    (∃ f ∈ ["a.txt"],
      matchesAnyPattern f (combinedPatterns ([] : List Step)) = false) ∧
    planValidate { steps := [] } ["a.txt"] =
      [{ message := .noSteps, fatal := true }] ∧
    (planValidate { steps := [] } ["a.txt"]).filter isCoverageErr = [] := by
  decide

end Pullsaw

namespace Pullsaw

/-! ## Claim theorem: the empty-allow skip (C10) -/

theorem coverageErrors_cases {steps : List Step} {changed : List String}
    {e : ValidationError} (he : e ∈ coverageErrors steps changed) :
    e = { message := .notCovered (uncoveredFiles steps changed), fatal := true } := by
  unfold coverageErrors at he
  split at he
  · cases he
  · simpa using he

theorem dStepErrors_cases {d : StepDoc} {e : DValidationError}
    (he : e ∈ dStepErrors d) :
    (d.allow? = none ∧ e = { message := .missingAllow d.id?, fatal := true }) ∨
    (d.allow? ≠ none ∧
      (e = { message := .missingTitle d.id?, fatal := false } ∨
       e = { message := .missingGoal d.id?, fatal := false } ∨
       ∃ pe ∈ validatePatterns d.stepPatterns,
         e = { message := .patternProblem d.id? pe, fatal := true })) := by
  unfold dStepErrors at he
  by_cases h : d.allow? = none
  · rw [if_pos h] at he
    exact Or.inl ⟨h, by simpa using he⟩
  · rw [if_neg h] at he
    refine Or.inr ⟨h, ?_⟩
    rcases List.mem_append.mp he with h1 | h2
    · rcases List.mem_append.mp h1 with h3 | h4
      · split at h3 <;> simp_all
      · split at h4 <;> simp_all
    · rcases List.mem_map.mp h2 with ⟨pe, hpe, rfl⟩
      exact Or.inr (Or.inr ⟨pe, hpe, rfl⟩)

theorem dCoverageErrors_cases {steps : List StepDoc} {changed : List String}
    {e : DValidationError} (he : e ∈ dCoverageErrors steps changed) :
    e = { message := .notCovered (dUncoveredFiles steps changed), fatal := true } := by
  unfold dCoverageErrors at he
  split at he
  · cases he
  · simpa using he

theorem dUselessWarnings_cases {steps : List StepDoc} {changed : List String}
    {e : DValidationError} (he : e ∈ dUselessWarnings steps changed) :
    ∃ d ∈ steps, e = { message := .coversNothing d.id?, fatal := false } := by
  unfold dUselessWarnings at he
  rcases List.mem_filterMap.mp he with ⟨d, hd, hde⟩
  refine ⟨d, hd, ?_⟩
  by_cases h : (changed.any fun f => matchesAnyPattern f d.stepPatterns) = true
  · rw [if_pos h] at hde; cases hde
  · rw [if_neg h] at hde; exact (Option.some_inj.mp hde).symm

/-- C10 (amended): in `Plan.validate`, a step with an empty (or missing,
which parses to empty) `allow` is skipped after the single fatal
missing-allow error — its patterns (`shared_allow` included) stay out of
the coverage set, its title/goal warnings and per-pattern validation are
not produced, and a changed file matched only by such steps is reported
uncovered. In the dict-based `executor.validate_plan`, however, the skip
condition is key absence: a step whose `allow` key is present but empty
is not skipped — it contributes no missing-allow error and its
`shared_allow` patterns do count toward coverage. -/
theorem c10_empty_allow_skip :
    (∀ (p : Plan) (changed : List String) (s : Step), s ∈ p.steps → s.allow = [] →
       ({ message := .missingAllow s.id, fatal := true } : ValidationError) ∈
           planValidate p changed ∧
         (∀ f ∈ changed,
            (∀ t ∈ p.steps, t.allow ≠ [] → matchesAnyPattern f t.allPatterns = false) →
            ∃ fs, ({ message := .notCovered fs, fatal := true } : ValidationError) ∈
                planValidate p changed ∧ f ∈ fs) ∧
         ((∀ t ∈ p.steps, t.id = s.id → t.allow = []) →
            ∀ e ∈ planValidate p changed,
              e.message ≠ .missingTitle s.id ∧ e.message ≠ .missingGoal s.id ∧
              ∀ pe, e.message ≠ .patternProblem s.id pe)) ∧
    (∀ (stack : List StepDoc) (changed : List String) (d : StepDoc),
       d ∈ stack → d.allow? = some [] →
       ((∀ t ∈ stack, t.id? = d.id? → t.allow? ≠ none) →
          ∀ e ∈ validatePlanDict { stack? := some stack } changed,
            e.message ≠ .missingAllow d.id?) ∧
       (∀ f ∈ changed, matchesAnyPattern f d.stepPatterns = true →
          ∀ e ∈ validatePlanDict { stack? := some stack } changed,
            ∀ fs, e.message = DMsg.notCovered fs → f ∉ fs)) := by
  constructor
  · intro p changed s hs hemp
    have hne : p.steps ≠ [] := by
      intro h0; rw [h0] at hs; cases hs
    have hvp : planValidate p changed =
        p.steps.flatMap stepErrors ++ coverageErrors p.steps changed ++
          uselessWarnings p.steps changed := by
      unfold planValidate; rw [if_neg hne]
    refine ⟨?_, ?_, ?_⟩
    · rw [hvp]
      refine List.mem_append_left _ (List.mem_append_left _ ?_)
      refine List.mem_flatMap.mpr ⟨s, hs, ?_⟩
      unfold stepErrors
      rw [if_pos hemp]
      exact List.mem_singleton.mpr rfl
    · intro f hf hnomatch
      have hcoll : matchesAnyPattern f (collectedPatterns p.steps) = false := by
        cases hcase : matchesAnyPattern f (collectedPatterns p.steps) with
        | false => rfl
        | true =>
          rcases List.any_eq_true.mp hcase with ⟨q, hq, hm⟩
          rcases List.mem_flatMap.mp hq with ⟨t, ht, hqt⟩
          have ht' := List.mem_filter.mp ht
          have : matchesAnyPattern f t.allPatterns = true :=
            List.any_eq_true.mpr ⟨q, hqt, hm⟩
          rw [hnomatch t ht'.1 (by simpa using ht'.2)] at this
          cases this
      have hfunc : f ∈ uncoveredFiles p.steps changed := by
        unfold uncoveredFiles
        exact List.mem_filter.mpr ⟨hf, by simp [hcoll]⟩
      have hune : uncoveredFiles p.steps changed ≠ [] := by
        intro h0; rw [h0] at hfunc; cases hfunc
      refine ⟨uncoveredFiles p.steps changed, ?_, hfunc⟩
      rw [hvp]
      refine List.mem_append_left _ (List.mem_append_right _ ?_)
      unfold coverageErrors
      rw [if_neg hune]
      exact List.mem_singleton.mpr rfl
    · intro huniq e he
      rw [hvp] at he
      rcases List.mem_append.mp he with h1 | h2
      · rcases List.mem_append.mp h1 with h3 | h4
        · rcases List.mem_flatMap.mp h3 with ⟨t, ht, het⟩
          rcases stepErrors_cases het with ⟨_, rfl⟩ | ⟨htall, rfl | rfl | ⟨pe, _, rfl⟩⟩
          · exact ⟨by simp, by simp, by simp⟩
          · refine ⟨?_, by simp, by simp⟩
            simp only [ne_eq, Msg.missingTitle.injEq]
            intro hid
            exact htall (huniq t ht hid)
          · refine ⟨by simp, ?_, by simp⟩
            simp only [ne_eq, Msg.missingGoal.injEq]
            intro hid
            exact htall (huniq t ht hid)
          · refine ⟨by simp, by simp, ?_⟩
            intro pe'
            simp only [ne_eq, Msg.patternProblem.injEq, not_and]
            intro hid
            exact absurd (huniq t ht hid) htall
        · rw [coverageErrors_cases h4]
          exact ⟨by simp, by simp, by simp⟩
      · rcases uselessWarnings_cases h2 with ⟨t, _, rfl⟩
        exact ⟨by simp, by simp, by simp⟩
  · intro stack changed d hd hdallow
    have hne : stack ≠ [] := by
      intro h0; rw [h0] at hd; cases hd
    have hvp : validatePlanDict { stack? := some stack } changed =
        stack.flatMap dStepErrors ++ dCoverageErrors stack changed ++
          dUselessWarnings stack changed := by
      unfold validatePlanDict
      simp only
      rw [if_neg hne]
    constructor
    · intro huniq e he
      rw [hvp] at he
      rcases List.mem_append.mp he with h1 | h2
      · rcases List.mem_append.mp h1 with h3 | h4
        · rcases List.mem_flatMap.mp h3 with ⟨t, ht, het⟩
          rcases dStepErrors_cases het with ⟨htnone, rfl⟩ | ⟨_, rfl | rfl | ⟨pe, _, rfl⟩⟩
          · simp only [ne_eq, DMsg.missingAllow.injEq]
            intro hid
            exact (huniq t ht hid) htnone
          · simp
          · simp
          · simp
        · rw [dCoverageErrors_cases h4]
          simp
      · rcases dUselessWarnings_cases h2 with ⟨t, _, rfl⟩
        simp
    · intro f hf hfm e he fs hfs
      have hcov : matchesAnyPattern f (dCollectedPatterns stack) = true := by
        rcases List.any_eq_true.mp hfm with ⟨q, hq, hm⟩
        refine List.any_eq_true.mpr ⟨q, ?_, hm⟩
        refine List.mem_flatMap.mpr ⟨d, List.mem_filter.mpr ⟨hd, ?_⟩, hq⟩
        simp [hdallow]
      have hnotun : f ∉ dUncoveredFiles stack changed := by
        unfold dUncoveredFiles
        intro hmem
        have := (List.mem_filter.mp hmem).2
        rw [hcov] at this
        cases this
      rw [hvp] at he
      rcases List.mem_append.mp he with h1 | h2
      · rcases List.mem_append.mp h1 with h3 | h4
        · rcases List.mem_flatMap.mp h3 with ⟨t, ht, het⟩
          rcases dStepErrors_cases het with ⟨_, rfl⟩ | ⟨_, rfl | rfl | ⟨pe, _, rfl⟩⟩ <;>
            cases hfs
        · rw [dCoverageErrors_cases h4] at hfs
          simp only [DMsg.notCovered.injEq] at hfs
          rw [← hfs]
          exact hnotun
      · rcases dUselessWarnings_cases h2 with ⟨t, _, rfl⟩
        cases hfs

/-- Counterexample to C10 as stated: a one-step stack whose `allow` key
is present but empty and whose `shared_allow` covers the changed file.
`validate_plan` returns no error at all (no missing-allow error, the
file is covered), while `Plan.validate` on the same logical step skips
it and reports both fatals the claim describes. -/
theorem c10_counterexample_present_empty_allow :
    validatePlanDict
        { stack? := some [{ id? := some 1, title? := some "t", goal? := some "g",
                            allow? := some [], shared_allow? := some ["a/**"] }] }
        ["a/x"] = [] ∧
    planValidate
        { steps := [{ id := 1, title := "t", goal := "g", allow := [],
                      shared_allow := ["a/**"] }] }
        ["a/x"] =
      [{ message := .missingAllow 1, fatal := true },
       { message := .notCovered ["a/x"], fatal := true }] := by
  decide

end Pullsaw

namespace Pullsaw

/-! ## Claim theorems: serialization round trip (C6) and the
trailing-`/**` pattern semantics (C1) -/

/-- C6: re-parsing a serialized plan yields a plan with the same number
of steps, and per position the same `id`, `title`, `goal`, `allow` and
`shared_allow` (order preserved); serialization omits the
`shared_allow` key when the list is empty and the `topic` key when the
topic is absent or empty, rather than writing empty values. The YAML
byte layer (`yaml.dump`/`yaml.safe_load`) is the identity on document
trees of this shape and is not modelled separately. -/
theorem c6_round_trip (p : Plan) :
    ∃ p', Plan.fromDoc (Plan.toDoc p) = .ok p' ∧
      p'.steps.length = p.steps.length ∧
      (∀ i : Nat, ∀ s s' : Step, p.steps[i]? = some s → p'.steps[i]? = some s' →
         s'.id = s.id ∧ s'.title = s.title ∧ s'.goal = s.goal ∧
           s'.allow = s.allow ∧ s'.shared_allow = s.shared_allow) ∧
      (∀ s : Step, s.shared_allow = [] → (Step.toDict s).shared_allow? = none) ∧
      (∀ s : Step, s.topic = none ∨ s.topic = some "" →
        (Step.toDict s).topic? = none) := by
  refine ⟨{ steps := (p.steps.map Step.toDict).map Step.fromDict }, rfl, by simp,
    ?_, ?_, ?_⟩
  · intro i s s' hs hs'
    simp only [List.getElem?_map, hs, Option.map_some] at hs'
    cases hs'
    refine ⟨rfl, rfl, rfl, rfl, ?_⟩
    by_cases h : s.shared_allow = [] <;>
      simp [Step.toDict, Step.fromDict, h]
  · intro s h
    simp [Step.toDict, h]
  · intro s h
    rcases h with h | h <;> simp [Step.toDict, pyTruthyStr, h]

/-- C1 (amended): for a pattern `p = d ++ "/**"` and any path `f`,
`matches_pattern(f, p)` returns `True` exactly when `f == d`, or `f`
starts with `d + "/"`, or the `PurePosixPath.match` fallback accepts
`f` — the fallback can accept paths outside the `d` subtree whose
trailing components match the pattern's components (e.g.
`x/lib/auth/y`), so the subtree characterization alone is only the
"if" direction; a path such as `lib/authorize/x`, whose first
component merely shares `d` as a string prefix, is still rejected. -/
theorem c1_trailing_glob_semantics (d f : List Char) :
    (matchesPatternL f (d ++ "/**".data) =
      ((d ++ "/".data).isPrefixOf f || decide (f = d) ||
        purePathMatch f (d ++ "/**".data))) ∧
    matchesPatternL "lib/authorize/x".data "lib/auth/**".data = false := by
  constructor
  · have hsfx : ("/**".data).isSuffixOf (d ++ "/**".data) = true := by
      rw [List.isSuffixOf_iff_suffix]
      exact List.suffix_append d "/**".data
    have hlen : (d ++ "/**".data).length - 3 = d.length := by
      simp [List.length_append]
    have htake : (d ++ "/**".data).take ((d ++ "/**".data).length - 3) = d := by
      rw [hlen]
      exact List.take_left' rfl
    unfold matchesPatternL
    rw [hsfx, if_pos rfl, htake]
    dsimp only
    by_cases h : ((d ++ "/".data).isPrefixOf f || decide (f = d)) = true
    · rw [if_pos h, h]
      simp
    · rw [if_neg h]
      have h2 : ((d ++ "/".data).isPrefixOf f || decide (f = d)) = false := by
        cases hx : ((d ++ "/".data).isPrefixOf f || decide (f = d)) with
        | false => rfl
        | true => exact absurd hx h
      rw [h2]
      simp
  · decide

/-- Counterexample to C1 as stated: `matches_pattern` accepts
`x/lib/auth/y` against `lib/auth/**` through the `PurePosixPath.match`
fallback, although that path neither equals the prefix `lib/auth` nor
starts with `lib/auth/` — a path outside the subtree matches. -/
theorem c1_counterexample_outside_subtree :
    matchesPatternL "x/lib/auth/y".data "lib/auth/**".data = true ∧
    "x/lib/auth/y".data ≠ "lib/auth".data ∧
    ("lib/auth/".data).isPrefixOf "x/lib/auth/y".data = false := by
  decide

end Pullsaw

namespace Pullsaw

/-! ## Claim theorem: branch-name sanitization (C7)

The development below proves the output invariants of each pipeline
stage of `sanitize_branch_name` and assembles them into idempotence:
re-running the pipeline on its own output finds nothing left to
rewrite. -/

/-- No two adjacent characters of the list both satisfy `q`. -/
def noTwoAdj (q : Char → Bool) : List Char → Bool
  | x :: y :: xs => (!(q x && q y)) && noTwoAdj q (y :: xs)
  | _ => true

theorem noTwoAdj_tail {q : Char → Bool} {a : Char} {l : List Char}
    (h : noTwoAdj q (a :: l) = true) : noTwoAdj q l = true := by
  cases l with
  | nil => rfl
  | cons b l' =>
    simp only [noTwoAdj, Bool.and_eq_true] at h
    exact h.2

theorem noTwoAdj_iff_chain (q : Char → Bool) (l : List Char) :
    noTwoAdj q l = true ↔
      l.Chain' (fun a b => ¬(q a = true ∧ q b = true)) := by
  induction l with
  | nil => simp [noTwoAdj]
  | cons a l' ih =>
    cases l' with
    | nil => simp [noTwoAdj]
    | cons b l'' =>
      rw [List.chain'_cons, ← ih]
      simp only [noTwoAdj, Bool.and_eq_true, Bool.not_eq_true']
      constructor
      · rintro ⟨h1, h2⟩
        refine ⟨?_, h2⟩
        rintro ⟨ha, hb⟩
        rw [ha, hb] at h1
        cases h1
      · rintro ⟨h1, h2⟩
        refine ⟨?_, h2⟩
        cases ha : q a <;> cases hb : q b <;> simp_all

theorem noTwoAdj_reverse (q : Char → Bool) (l : List Char) :
    noTwoAdj q l.reverse = noTwoAdj q l := by
  rw [Bool.eq_iff_iff, noTwoAdj_iff_chain, noTwoAdj_iff_chain,
    List.chain'_reverse]
  constructor
  · exact fun h => h.imp fun a b hab hcontra => hab ⟨hcontra.2, hcontra.1⟩
  · exact fun h => h.imp fun a b hab hcontra => hab ⟨hcontra.2, hcontra.1⟩

theorem noTwoAdj_dropWhile (q p : Char → Bool) (l : List Char)
    (h : noTwoAdj q l = true) : noTwoAdj q (l.dropWhile p) = true := by
  induction l with
  | nil => rfl
  | cons a l' ih =>
    rw [List.dropWhile_cons]
    split
    · exact ih (noTwoAdj_tail h)
    · exact h

theorem dropWhile_head {p : Char → Bool} {l : List Char} {c₀ : Char}
    (h : (l.dropWhile p).head? = some c₀) : p c₀ = false := by
  induction l with
  | nil => cases h
  | cons a l' ih =>
    rw [List.dropWhile_cons] at h
    by_cases hp : p a = true
    · rw [if_pos hp] at h
      exact ih h
    · rw [if_neg hp] at h
      cases h
      simpa using hp

theorem dropWhile_id {p : Char → Bool} {l : List Char}
    (h : ∀ c₀, l.head? = some c₀ → p c₀ = false) : l.dropWhile p = l := by
  cases l with
  | nil => rfl
  | cons a l' =>
    rw [List.dropWhile_cons, if_neg]
    simp [h a rfl]

theorem getLast?_cons_of_ne_nil {a : Char} {l : List Char} (h : l ≠ []) :
    (a :: l).getLast? = l.getLast? := by
  rcases List.exists_cons_of_ne_nil h with ⟨b, L, rfl⟩
  exact List.getLast?_cons_cons

theorem getLast?_dropWhile_of_ne_nil {p : Char → Bool} {l : List Char}
    (hne : l.dropWhile p ≠ []) : (l.dropWhile p).getLast? = l.getLast? := by
  induction l with
  | nil => simp at hne
  | cons a l' ih =>
    rw [List.dropWhile_cons]
    by_cases hp : p a = true
    · rw [List.dropWhile_cons, if_pos hp] at hne
      have hl' : l' ≠ [] := by
        intro h0
        rw [h0] at hne
        simp at hne
      rw [if_pos hp, ih hne, getLast?_cons_of_ne_nil hl']
    · rw [if_neg hp]

/-! Properties of `squash`. -/

theorem squash_ne_nil (p : Char → Bool) (c : Char) :
    ∀ l : List Char, l ≠ [] → squash p c l ≠ [] := by
  intro l
  induction l with
  | nil => simp
  | cons x xs ih =>
    intro _
    cases xs with
    | nil =>
      simp only [squash]
      split <;> simp
    | cons y ys =>
      simp only [squash]
      split
      · exact ih (by simp)
      · simp

theorem squash_head (p : Char → Bool) (c : Char) :
    ∀ (xs : List Char) (x : Char),
      (squash p c (x :: xs)).head? = some (if p x then c else x) := by
  intro xs
  induction xs with
  | nil =>
    intro x
    simp only [squash]
    split <;> simp_all
  | cons y ys ih =>
    intro x
    simp only [squash]
    split
    · rename_i hxy
      rw [ih y]
      obtain ⟨hx, hy⟩ : p x = true ∧ p y = true := by simpa using hxy
      rw [if_pos hx, if_pos hy]
    · simp

theorem squash_mem (p : Char → Bool) (c : Char) :
    ∀ (l : List Char) (x : Char), x ∈ squash p c l →
      x = c ∨ (x ∈ l ∧ p x = false) := by
  intro l
  induction l with
  | nil => simp [squash]
  | cons a as ih =>
    intro x hx
    cases as with
    | nil =>
      simp only [squash] at hx
      split at hx
      · simp at hx
        exact Or.inl hx
      · simp at hx
        rename_i hp
        exact Or.inr ⟨by simp [hx], by rw [hx]; simpa using hp⟩
    | cons y ys =>
      simp only [squash] at hx
      split at hx
      · rcases ih x hx with h | ⟨h1, h2⟩
        · exact Or.inl h
        · exact Or.inr ⟨List.mem_cons_of_mem a h1, h2⟩
      · rcases List.mem_cons.mp hx with h | h
        · by_cases hp : p a = true
          · rw [if_pos hp] at h
            exact Or.inl h
          · rw [if_neg hp] at h
            exact Or.inr ⟨by simp [h], by rw [h]; simpa using hp⟩
        · rcases ih x h with h' | ⟨h1, h2⟩
          · exact Or.inl h'
          · exact Or.inr ⟨List.mem_cons_of_mem a h1, h2⟩

theorem squash_id_of_not (p : Char → Bool) (c : Char) :
    ∀ l : List Char, (∀ x ∈ l, p x = false) → squash p c l = l := by
  intro l
  induction l with
  | nil => intro _; rfl
  | cons a as ih =>
    intro h
    have ha : p a = false := h a (by simp)
    cases as with
    | nil =>
      simp only [squash]
      rw [if_neg (by simp [ha])]
    | cons y ys =>
      have hy : p y = false := h y (by simp)
      simp only [squash]
      rw [if_neg (by simp [ha]), if_neg (by simp [ha])]
      rw [ih fun x hx => h x (List.mem_cons_of_mem a hx)]

theorem squash_id_of_noTwo (p : Char → Bool) (c : Char)
    (hpc : ∀ x, p x = true → x = c) :
    ∀ l : List Char, noTwoAdj p l = true → squash p c l = l := by
  intro l
  induction l with
  | nil => intro _; rfl
  | cons a as ih =>
    intro h
    cases as with
    | nil =>
      simp only [squash]
      split
      · rename_i hp
        rw [hpc a hp]
      · rfl
    | cons y ys =>
      have hnot : (p a && p y) = false := by
        have h1 := h
        simp only [noTwoAdj, Bool.and_eq_true, Bool.not_eq_true'] at h1
        exact h1.1
      simp only [squash]
      rw [if_neg (by simp [hnot])]
      rw [ih (noTwoAdj_tail h)]
      by_cases hp : p a = true
      · rw [if_pos hp, hpc a hp]
      · rw [if_neg hp]

theorem noTwoAdj_cons_head {q : Char → Bool} {a : Char} {l : List Char}
    (hhead : ∀ b, l.head? = some b → ¬(q a = true ∧ q b = true))
    (htail : noTwoAdj q l = true) : noTwoAdj q (a :: l) = true := by
  cases l with
  | nil => rfl
  | cons b l' =>
    simp only [noTwoAdj, Bool.and_eq_true]
    refine ⟨?_, htail⟩
    have := hhead b rfl
    cases ha : q a <;> cases hb : q b <;> simp_all

theorem noTwoAdj_squash (p : Char → Bool) (c : Char) :
    ∀ l : List Char, noTwoAdj p (squash p c l) = true := by
  intro l
  induction l with
  | nil => rfl
  | cons a as ih =>
    cases as with
    | nil =>
      simp only [squash]
      split <;> rfl
    | cons y ys =>
      simp only [squash]
      split
      · exact ih
      · rename_i hnot
        refine noTwoAdj_cons_head ?_ ih
        intro b hb
        rw [squash_head p c ys y] at hb
        have hb' : b = if p y then c else y := by
          simpa using hb.symm
        by_cases hy : p y = true
        · have hxfalse : p a = false := by
            cases hx : p a
            · rfl
            · rw [hx, hy] at hnot
              simp at hnot
          rintro ⟨h1, _⟩
          by_cases hpa : p a = true
          · rw [hpa] at hxfalse; cases hxfalse
          · have : (if p a then c else a) = a := by rw [if_neg hpa]
            rw [this] at h1
            exact hpa h1
        · rw [if_neg hy] at hb'
          rintro ⟨_, h2⟩
          rw [hb'] at h2
          exact hy h2

theorem noTwoAdj_squash_preserve (q p : Char → Bool) (c : Char)
    (hqc : q c = false) :
    ∀ l : List Char, noTwoAdj q l = true → noTwoAdj q (squash p c l) = true := by
  intro l
  induction l with
  | nil => intro _; rfl
  | cons a as ih =>
    intro h
    cases as with
    | nil =>
      simp only [squash]
      split <;> rfl
    | cons y ys =>
      simp only [squash]
      split
      · exact ih (noTwoAdj_tail h)
      · refine noTwoAdj_cons_head ?_ (ih (noTwoAdj_tail h))
        intro b hb
        rw [squash_head p c ys y] at hb
        have hb' : b = if p y then c else y := by simpa using hb.symm
        by_cases hpa : p a = true
        · rintro ⟨h1, _⟩
          rw [if_pos hpa] at h1
          rw [h1] at hqc
          cases hqc
        · by_cases hy : p y = true
          · rintro ⟨_, h2⟩
            rw [if_pos hy] at hb'
            rw [hb'] at h2
            rw [h2] at hqc
            cases hqc
          · rintro ⟨h1, h2⟩
            rw [if_neg hpa] at h1
            rw [if_neg hy] at hb'
            rw [hb'] at h2
            have hq : ¬(q a = true ∧ q y = true) := by
              simp only [noTwoAdj, Bool.and_eq_true] at h
              have := h.1
              cases ha' : q a <;> cases hy' : q y <;> simp_all
            exact hq ⟨h1, h2⟩

theorem squash_getLast (p : Char → Bool) (c : Char) :
    ∀ (l : List Char) (z : Char), l.getLast? = some z → p z = false →
      (squash p c l).getLast? = some z := by
  intro l
  induction l with
  | nil => intro z hz; cases hz
  | cons a as ih =>
    intro z hz hpz
    cases as with
    | nil =>
      simp only [List.getLast?_singleton] at hz
      cases hz
      simp only [squash]
      rw [if_neg (by simp [hpz])]
      rfl
    | cons y ys =>
      rw [List.getLast?_cons_cons] at hz
      simp only [squash]
      split
      · exact ih z hz hpz
      · have hne : squash p c (y :: ys) ≠ [] := squash_ne_nil p c _ (by simp)
        rw [getLast?_cons_of_ne_nil hne]
        exact ih z hz hpz

/-! Properties of `stripChars`. -/

theorem strip_mem (p : Char → Bool) (l : List Char) :
    ∀ x ∈ stripChars p l, x ∈ l := by
  intro x hx
  unfold stripChars at hx
  rw [List.mem_reverse] at hx
  have h1 := (List.dropWhile_sublist (l := (l.dropWhile p).reverse) p).mem hx
  rw [List.mem_reverse] at h1
  exact (List.dropWhile_sublist p).mem h1

theorem strip_head {p : Char → Bool} {l : List Char} {c₀ : Char}
    (h : (stripChars p l).head? = some c₀) : p c₀ = false := by
  unfold stripChars at h
  rw [List.head?_reverse] at h
  have hne : (l.dropWhile p).reverse.dropWhile p ≠ [] := by
    intro h0
    rw [h0] at h
    cases h
  rw [getLast?_dropWhile_of_ne_nil hne, List.getLast?_reverse] at h
  exact dropWhile_head (l := l) h

theorem strip_last {p : Char → Bool} {l : List Char} {c₀ : Char}
    (h : (stripChars p l).getLast? = some c₀) : p c₀ = false := by
  unfold stripChars at h
  rw [List.getLast?_reverse] at h
  exact dropWhile_head h

theorem strip_noTwo (q p : Char → Bool) (l : List Char)
    (h : noTwoAdj q l = true) : noTwoAdj q (stripChars p l) = true := by
  unfold stripChars
  rw [noTwoAdj_reverse]
  apply noTwoAdj_dropWhile
  rw [noTwoAdj_reverse]
  exact noTwoAdj_dropWhile q p l h

theorem strip_id {p : Char → Bool} {l : List Char}
    (hh : ∀ c₀, l.head? = some c₀ → p c₀ = false)
    (hl : ∀ c₀, l.getLast? = some c₀ → p c₀ = false) : stripChars p l = l := by
  unfold stripChars
  rw [dropWhile_id hh]
  rw [dropWhile_id (fun c₀ hc => by
    rw [List.head?_reverse] at hc
    exact hl c₀ hc)]
  exact List.reverse_reverse l

end Pullsaw

namespace Pullsaw

/-- C7: `sanitize_branch_name` is idempotent, and its output contains no
whitespace and none of `~ ^ : ? * [ ] \\ @ /`, no two consecutive dots,
no two consecutive hyphens, and neither starts nor ends with a dot or a
hyphen. Idempotence follows because every pipeline stage finds nothing
left to rewrite in such an output. -/
theorem c7_sanitize_idempotent (s : List Char) :
    sanitizeBranchName (sanitizeBranchName s) = sanitizeBranchName s ∧
    (∀ x ∈ sanitizeBranchName s, badChar x = false) ∧
    noTwoAdj isDot (sanitizeBranchName s) = true ∧
    noTwoAdj isDash (sanitizeBranchName s) = true ∧
    (∀ c₀, (sanitizeBranchName s).head? = some c₀ → dotOrDash c₀ = false) ∧
    (∀ c₀, (sanitizeBranchName s).getLast? = some c₀ → dotOrDash c₀ = false) := by
  have hdef : sanitizeBranchName s =
      squash isDash '-'
        (stripChars dotOrDash (squash isDot '.' (squash badChar '-' s))) := rfl
  set s1 : List Char := squash badChar '-' s with hs1
  set s2 : List Char := squash isDot '.' s1 with hs2
  set s3 : List Char := stripChars dotOrDash s2 with hs3
  set o : List Char := squash isDash '-' s3 with ho
  have hmem : ∀ x ∈ o, badChar x = false := by
    intro x hx
    rcases squash_mem isDash '-' s3 x hx with rfl | ⟨h3, _⟩
    · decide
    · have h2 := strip_mem dotOrDash s2 x h3
      rcases squash_mem isDot '.' s1 x h2 with rfl | ⟨h1, _⟩
      · decide
      · rcases squash_mem badChar '-' s x h1 with rfl | ⟨_, hb⟩
        · decide
        · exact hb
  have hdot : noTwoAdj isDot o = true := by
    refine noTwoAdj_squash_preserve isDot isDash '-' (by decide) s3 ?_
    exact strip_noTwo isDot dotOrDash s2 (noTwoAdj_squash isDot '.' s1)
  have hdash : noTwoAdj isDash o = true := noTwoAdj_squash isDash '-' s3
  have hhead : ∀ c₀, o.head? = some c₀ → dotOrDash c₀ = false := by
    intro c₀ hc
    cases h3 : s3 with
    | nil =>
      rw [ho, h3] at hc
      cases hc
    | cons a as =>
      rw [ho, h3, squash_head] at hc
      have hsh : dotOrDash a = false := by
        refine strip_head (p := dotOrDash) (l := s2) ?_
        rw [← hs3, h3]
        rfl
      have hda : isDash a = false := by
        cases hd : isDash a
        · rfl
        · exfalso
          have : dotOrDash a = true := by
            simp [dotOrDash, isDash] at hd ⊢
            simp [hd]
          rw [this] at hsh
          cases hsh
      rw [if_neg (by simp [hda])] at hc
      cases hc
      exact hsh
  have hlast : ∀ c₀, o.getLast? = some c₀ → dotOrDash c₀ = false := by
    intro c₀ hc
    cases h3 : s3.getLast? with
    | none =>
      have : s3 = [] := List.getLast?_eq_none_iff.mp h3
      rw [ho, this] at hc
      cases hc
    | some z =>
      have hzp : dotOrDash z = false := by
        refine strip_last (p := dotOrDash) (l := s2) ?_
        rw [← hs3]
        exact h3
      have hdz : isDash z = false := by
        cases hd : isDash z
        · rfl
        · exfalso
          have : dotOrDash z = true := by
            simp [dotOrDash, isDash] at hd ⊢
            simp [hd]
          rw [this] at hzp
          cases hzp
      have := squash_getLast isDash '-' s3 z h3 hdz
      rw [ho] at hc
      rw [this] at hc
      cases hc
      exact hzp
  have hstep1 : squash badChar '-' o = o := squash_id_of_not badChar '-' o hmem
  have hstep2 : squash isDot '.' o = o := by
    refine squash_id_of_noTwo isDot '.' ?_ o hdot
    intro x hx
    simpa [isDot] using hx
  have hstep3 : stripChars dotOrDash o = o := by
    refine strip_id ?_ ?_
    · exact hhead
    · exact hlast
  have hstep4 : squash isDash '-' o = o := by
    refine squash_id_of_noTwo isDash '-' ?_ o hdash
    intro x hx
    simpa [isDash] using hx
  refine ⟨?_, hmem, hdot, hdash, hhead, hlast⟩
  show squash isDash '-'
      (stripChars dotOrDash (squash isDot '.' (squash badChar '-' o))) = o
  rw [hstep1, hstep2, hstep3, hstep4]

end Pullsaw
